import Mathlib

/-!
# Verification of the financial-data reshaping pipeline

Shallow embedding of the notebook's data-shaping pipeline:

* the merge loop (`all_data`): sequential outer joins of per-ticker OHLC
  frames whose columns are renamed to embed the ticker,
* symbol extraction from column names of the persisted wide table,
* the per-symbol projection used by the batch chart generator
  (`generate_candlestick_charts`) and by the interactive callback
  (`update_chart`).

Strings are modelled as `List Char`; dates as `ℕ`; prices as `ℚ`.
The fetched frames observed at runtime carry pair-shaped column labels,
so the renamed column for field `F` and ticker `T` is the string
`('F', 'T')_T` (the f-string rendering of the tuple label followed by
`_T`).
-/

set_option maxHeartbeats 1000000

abbrev Str := List Char

abbrev Date := Nat

/-- The single quote character, written via its code point. -/
def qc : Char := Char.ofNat 39

/-- One fetched record: the four price fields kept by the merge loop. -/
structure OHLC where
  Open : ℚ
  High : ℚ
  Low : ℚ
  Close : ℚ
deriving DecidableEq

/-- One symbol's fetched data: a date-indexed sequence of OHLC records. -/
abbrev Series := List (Date × OHLC)

/-- The four field names, in the order the merge loop keeps them
(`data[['Open', 'High', 'Low', 'Close']]`). -/
inductive FieldName where
  | Open
  | High
  | Low
  | Close
deriving DecidableEq

/-- The string form of a field name inside the pair-shaped column label. -/
def fieldStr : FieldName → Str
  | FieldName.Open => ['O', 'p', 'e', 'n']
  | FieldName.High => ['H', 'i', 'g', 'h']
  | FieldName.Low => ['L', 'o', 'w']
  | FieldName.Close => ['C', 'l', 'o', 's', 'e']

/-- The value of a field in a record. -/
def fieldVal : FieldName → OHLC → ℚ
  | FieldName.Open, r => r.Open
  | FieldName.High, r => r.High
  | FieldName.Low, r => r.Low
  | FieldName.Close, r => r.Close

def fieldsList : List FieldName := [FieldName.Open, FieldName.High, FieldName.Low, FieldName.Close]

/-- The renamed column name `f"{col}_{ticker}"` where `col` is the
pair-shaped label `('F', 'T')`: the result is `('F', 'T')_T`. -/
def colName (f : FieldName) (t : Str) : Str :=
  '(' :: qc :: (fieldStr f ++ qc :: ',' :: ' ' :: qc :: (t ++ qc :: ')' :: '_' :: t))

/-- A column of the wide table: its name together with the dates at which
it holds a value (absent dates are the NaN cells of that column). -/
abbrev Col := Str × List (Date × ℚ)

/-- The merged wide table: the date index (one row per date) and the
OHLC columns.  After `reset_index` / `set_index` the date itself is the
index, not one of `cols`. -/
structure Wide where
  index : List Date
  cols : List Col
deriving DecidableEq

/-- Value of a column at a date (`none` is the NaN marker). -/
def lookupD (d : Date) (l : List (Date × ℚ)) : Option ℚ :=
  (l.find? (fun p => p.1 = d)).map Prod.snd

/-- Insert a date into a sorted duplicate-free date list, keeping it
sorted and duplicate-free. -/
def insertSorted (a : Date) : List Date → List Date
  | [] => [a]
  | b :: bs =>
    if a < b then a :: b :: bs
    else if b < a then b :: insertSorted a bs
    else b :: bs

/-- The index produced by a pandas outer join: the sorted union of the
two indexes. -/
def unionSorted (xs ys : List Date) : List Date :=
  ys.foldl (fun acc y => insertSorted y acc) xs

/-- The dates of one symbol's series. -/
def datesOf (p : Str × Series) : List Date := p.2.map Prod.fst

/-- The four renamed columns contributed by one ticker's fetched frame
(`data.columns = [f"{col}_{ticker}" for col in data.columns]`). -/
def seriesCols (t : Str) (s : Series) : List Col :=
  fieldsList.map (fun f => (colName f t, s.map (fun p => (p.1, fieldVal f p.2))))

/-- One iteration of the merge loop: `all_data = data` when `all_data`
is still empty (a frame with no rows is empty), otherwise
`all_data = all_data.join(data, how="outer")`. -/
def mergeStep (w : Wide) (p : Str × Series) : Wide :=
  if w.index.isEmpty then
    { index := datesOf p, cols := seriesCols p.1 p.2 }
  else
    { index := unionSorted w.index (datesOf p), cols := w.cols ++ seriesCols p.1 p.2 }

/-- The whole merge loop over the ticker list, starting from
`pd.DataFrame()`. -/
def merge (s : List (Str × Series)) : Wide :=
  s.foldl mergeStep { index := [], cols := [] }

/-- The column header of the persisted table: after `reset_index`, the
`Date` column followed by the OHLC columns. -/
def dateName : Str := ['D', 'a', 't', 'e']

def wideColumns (w : Wide) : List Str := dateName :: w.cols.map Prod.fst

/-- `col.startswith("(")`. -/
def startsParen : Str → Bool
  | '(' :: _ => true
  | _ => false

/-- `col.split("_")`: split on every occurrence of the separator. -/
def splitSep : Str → List Str
  | [] => [[]]
  | c :: cs =>
    match splitSep cs with
    | [] => [[]]
    | s :: rest => if c = '_' then [] :: s :: rest else (c :: s) :: rest

/-- `col.split("_")[-1]`: the segment after the last separator. -/
def symPart (col : Str) : Str := (splitSep col).getLastD []

/-- Modelled from the spec: the symbol-recovery rule the spec describes,
"everything after the *first* occurrence of the separator". -/
def afterFirstSep : Str → Str
  | [] => []
  | c :: cs => if c = '_' then cs else afterFirstSep cs

/-- `{col.split("_")[-1] for col in df.columns if col.startswith("(")}`. -/
def extract_symbols (cols : List Str) : Finset Str :=
  ((cols.filter (fun c => startsParen c)).map symPart).toFinset

/-- `[col for col in df.columns if col.endswith(f"_{ticker}")]` : the
columns of the wide table selected for one ticker. -/
def matchingCols (w : Wide) (t : Str) : List Col :=
  w.cols.filter (fun c => ('_' :: t).isSuffixOf c.1)

/-- The values of the selected columns at one date, in column order. -/
def rowOf (cs : List Col) (d : Date) : List (Option ℚ) :=
  cs.map (fun c => lookupD d c.2)

/-- The dates whose row survives `dropna`: every selected column holds a
value there. -/
def completeDates (w : Wide) (t : Str) : List Date :=
  w.index.filter (fun d => (rowOf (matchingCols w t) d).all Option.isSome)

/-- The per-ticker frame after `dropna`: one row per complete date. -/
def projectRows (w : Wide) (t : Str) : List (Date × List (Option ℚ)) :=
  (completeDates w t).map (fun d => (d, rowOf (matchingCols w t) d))

/-- `df.tail(k)`: the last `k` rows (all rows when fewer than `k`). -/
def tailK (k : ℕ) (l : List α) : List α := l.drop (l.length - k)

/-- The per-symbol projection: select, rename, `dropna`, `tail(k)`
(the batch path uses `k = 500`). -/
def project (w : Wide) (t : Str) (k : ℕ) : List (Date × List (Option ℚ)) :=
  tailK k (projectRows w t)

/-- The external chart renderer as an oracle: `true` means `mpf.plot`
succeeds, `false` means it raises. -/
abbrev Renderer := Str → List (Date × List (Option ℚ)) → Bool

inductive BatchStatus where
  | emptySkip
  | plotDone
  | plotFail
deriving DecidableEq

instance {e s : Type} [DecidableEq e] [DecidableEq s] : DecidableEq (Except e s) := fun a b =>
  match a, b with
  | Except.ok x, Except.ok y => decidable_of_iff (x = y) (by simp)
  | Except.ok _, Except.error _ => isFalse (fun h => by cases h)
  | Except.error _, Except.ok _ => isFalse (fun h => by cases h)
  | Except.error x, Except.error y => decidable_of_iff (x = y) (by simp)

/-- One iteration of the batch loop body.  Assigning the four OHLC names
to the selected columns (`ticker_data.columns = ['Open', 'High', 'Low',
'Close']`) raises a `ValueError` unless exactly four columns were
selected; that exception is not caught, so it is an `Except.error`.
Otherwise: `dropna`, the empty-frame skip, `tail(500)`, and a
`try/except` around `mpf.plot` that turns render failures into a logged
status. -/
def batchOne (w : Wide) (r : Renderer) (t : Str) : Except Str BatchStatus :=
  if (matchingCols w t).length = 4 then
    let rows := projectRows w t
    if rows.isEmpty then Except.ok BatchStatus.emptySkip
    else if r t (tailK 500 rows) then Except.ok BatchStatus.plotDone
    else Except.ok BatchStatus.plotFail
  else Except.error t

/-- `generate_candlestick_charts`: the batch loop over the ticker list.
An uncaught exception in one iteration aborts the remaining ones. -/
def generate_candlestick_charts (w : Wide) (r : Renderer) :
    List Str → Except Str (List (Str × BatchStatus))
  | [] => Except.ok []
  | t :: ts =>
    match batchOne w r t with
    | Except.error e => Except.error e
    | Except.ok st =>
      match generate_candlestick_charts w r ts with
      | Except.error e => Except.error e
      | Except.ok l => Except.ok ((t, st) :: l)

inductive ChartOutcome where
  | insufficientColumns
  | plotted
  | plotError
  | noValidData
deriving DecidableEq

/-- `update_chart`: the interactive dropdown callback.  It guards
`len(columns) < 4` with a printed skip message; with more than four
matching columns the truncated rename `['Open', 'High', 'Low',
'Close'][:len(columns)]` still has four names and raises uncaught
(`Except.error`); otherwise it drops incomplete rows, then either skips
(`noValidData`), plots, or prints the caught plot error. -/
def update_chart (w : Wide) (r : Renderer) (t : Str) : Except Unit ChartOutcome :=
  let columns := matchingCols w t
  if columns.length < 4 then Except.ok ChartOutcome.insufficientColumns
  else if columns.length = 4 then
    let rows := projectRows w t
    if rows.isEmpty then Except.ok ChartOutcome.noValidData
    else if r t rows then Except.ok ChartOutcome.plotted
    else Except.ok ChartOutcome.plotError
  else Except.error ()

/-! ## A heap model for the frame-effect claim

`ticker_data = df[columns]` selects with a list of labels, which in
pandas copies the data into a fresh frame; the subsequent
`ticker_data.columns = ...` assignment and `dropna(inplace=True)` mutate
that fresh frame only.  To state that the shared `df` is untouched we
make the frames heap cells and the pipeline a heap transformer. -/

abbrev Heap := List Wide

def readH (h : Heap) (r : ℕ) : Wide := h.getD r { index := [], cols := [] }

def writeH (h : Heap) (r : ℕ) (w : Wide) : Heap := h.set r w

def allocH (h : Heap) (w : Wide) : Heap × ℕ := (h ++ [w], h.length)

/-- `df[columns]`: a fresh frame holding the selected columns. -/
def selectW (w : Wide) (names : List Str) : Wide :=
  { index := w.index, cols := names.filterMap (fun n => w.cols.find? (fun c => c.1 = n)) }

def ohlcNames : List Str :=
  [['O', 'p', 'e', 'n'], ['H', 'i', 'g', 'h'], ['L', 'o', 'w'], ['C', 'l', 'o', 's', 'e']]

/-- `frame.columns = names`. -/
def renameW (w : Wide) (names : List Str) : Wide :=
  { index := w.index, cols := (w.cols.zip names).map (fun q => (q.2, q.1.2)) }

/-- `frame.dropna()`: keep only the rows complete in every column. -/
def dropnaW (w : Wide) : Wide :=
  { index := w.index.filter (fun d => (rowOf w.cols d).all Option.isSome), cols := w.cols }

/-- `frame.tail(k)`. -/
def tailW (k : ℕ) (w : Wide) : Wide := { index := tailK k w.index, cols := w.cols }

/-- The batch projection as heap operations: select into a fresh cell,
rename that cell in place, `dropna(inplace=True)` on that cell,
`tail(500)` into another fresh cell.  Returns the final heap and the
cell of the projected frame. -/
def batchProjectOps (h : Heap) (df : ℕ) (t : Str) (k : ℕ) : Heap × ℕ :=
  let names := (matchingCols (readH h df) t).map Prod.fst
  let h1r := allocH h (selectW (readH h df) names)
  let h2 := writeH h1r.1 h1r.2 (renameW (readH h1r.1 h1r.2) ohlcNames)
  let h3 := writeH h2 h1r.2 (dropnaW (readH h2 h1r.2))
  allocH h3 (tailW k (readH h3 h1r.2))

/-- The interactive projection as heap operations: `df[columns].copy()`
into a fresh cell, rename, `dropna(inplace=True)` on that cell. -/
def interactiveProjectOps (h : Heap) (df : ℕ) (t : Str) : Heap × ℕ :=
  let names := (matchingCols (readH h df) t).map Prod.fst
  let h1r := allocH h (selectW (readH h df) names)
  let h2 := writeH h1r.1 h1r.2 (renameW (readH h1r.1 h1r.2) ohlcNames)
  let h3 := writeH h2 h1r.2 (dropnaW (readH h2 h1r.2))
  (h3, h1r.2)

/-- The flattened dates of a whole symbol mapping, for stating the
union-of-dates properties. -/
def flattenDates : List (Str × Series) → List Date
  | [] => []
  | p :: r => datesOf p ++ flattenDates r

/-- The columns contributed by all symbols, in supply order. -/
def colsAll : List (Str × Series) → List Col
  | [] => []
  | p :: r => seriesCols p.1 p.2 ++ colsAll r

/-- The missing cells of one column over a given date index. -/
def colMissing (idx : List Date) (c : Col) : ℕ :=
  idx.countP (fun d => (lookupD d c.2).isNone)

/-- The total count of NaN cells of the wide table. -/
def missingCount (w : Wide) : ℕ :=
  (w.cols.map (fun c => colMissing w.index c)).sum

/-! ### Concrete inputs used by witnesses and counterexamples -/

/-- A one-point record. -/
def rOne : OHLC := OHLC.mk 1 1 1 1

/-- Two symbols with disjoint, sorted, non-empty date ranges. -/
def sAB : List (Str × Series) :=
  [(['A'], [(1, rOne), (2, rOne)]), (['B'], [(3, rOne)])]

/-- A mapping whose first symbol has an empty (failed-fetch) Series. -/
def sEmptyA : List (Str × Series) := [(['A'], []), (['B'], [(1, rOne)])]

/-- The same mapping with the empty Series supplied last. -/
def sBA : List (Str × Series) := [(['B'], [(1, rOne)]), (['A'], [])]

/-- A wide table in which ticker `T` has only two matching columns while
ticker `U` has its full four. -/
def wPartialT : Wide :=
  { index := [1],
    cols := [(colName FieldName.Open ['T'], [(1, 5)]),
             (colName FieldName.High ['T'], [(1, 6)])] ++ seriesCols ['U'] [(1, rOne)] }

/-- A wide table containing only ticker `U`'s four columns. -/
def wOnlyU : Wide := { index := [1], cols := seriesCols ['U'] [(1, rOne)] }

/-- A wide table in which ticker `T` has four columns and two complete rows. -/
def wC4 : Wide := { index := [1, 2], cols := seriesCols ['T'] [(1, rOne), (2, rOne)] }

/-- A wide table in which ticker `T` has four columns but no complete row. -/
def wNoRows : Wide := { index := [1], cols := seriesCols ['T'] [] }

/-- The two-symbol mapping `sAB` supplied in the opposite order. -/
def sABrev : List (Str × Series) :=
  [(['B'], [(3, rOne)]), (['A'], [(1, rOne), (2, rOne)])]

/-- A renderer that always succeeds. -/
def rTrue : Renderer := fun _ _ => true

/-- A renderer that always raises. -/
def rFalse : Renderer := fun _ _ => false

/-- Look up a column of the wide table by name. -/
def colLookup (w : Wide) (name : Str) : Option (List (Date × ℚ)) :=
  (w.cols.find? (fun c => c.1 = name)).map Prod.snd

example : symPart (colName FieldName.Open ['A', '_', 'B']) = ['B'] := by decide

example : symPart (colName FieldName.Close ['S', 'P', 'Y']) = ['S', 'P', 'Y'] := by decide

example : startsParen dateName = false := by decide

example :
    (merge [(['A'], [(1, ⟨10, 10, 10, 10⟩)]), (['B'], [(2, ⟨20, 20, 20, 20⟩)])]).index
      = [1, 2] := by decide

/-! ## Lemmas about `split("_")` and the last segment -/

theorem splitSep_ne_nil (l : Str) : splitSep l ≠ [] := by
  cases l with
  | nil => simp [splitSep]
  | cons c cs =>
    simp only [splitSep]
    cases h : splitSep cs with
    | nil => simp
    | cons s rest =>
      by_cases hc : c = '_' <;> simp [hc]

theorem splitSep_of_not_mem {l : Str} (h : '_' ∉ l) : splitSep l = [l] := by
  induction l with
  | nil => rfl
  | cons c cs ih =>
    have hc : c ≠ '_' := fun hc => h (hc ▸ List.mem_cons_self c cs)
    have hcs : '_' ∉ cs := fun hm => h (List.mem_cons_of_mem c hm)
    simp [splitSep, ih hcs, hc]

theorem symPart_of_not_mem {l : Str} (h : '_' ∉ l) : symPart l = l := by
  simp [symPart, splitSep_of_not_mem h]

theorem two_le_splitSep_length {l : Str} (h : '_' ∈ l) : 2 ≤ (splitSep l).length := by
  induction l with
  | nil => cases h
  | cons c cs ih =>
    simp only [splitSep]
    rcases hsp : splitSep cs with _ | ⟨s, rest⟩
    · exact absurd hsp (splitSep_ne_nil cs)
    · by_cases hc : c = '_'
      · simp [hc]
      · have hm : '_' ∈ cs := by
          rcases List.mem_cons.mp h with h1 | h1
          · exact absurd h1.symm hc
          · exact h1
        have := ih hm
        rw [hsp] at this
        simp only [List.length_cons] at this ⊢
        simp [hc]
        omega

theorem symPart_append_sep (xs ys : Str) : symPart (xs ++ '_' :: ys) = symPart ys := by
  induction xs with
  | nil =>
    simp only [List.nil_append, symPart, splitSep]
    rcases hsp : splitSep ys with _ | ⟨s, rest⟩
    · exact absurd hsp (splitSep_ne_nil ys)
    · simp [List.getLastD_cons]
  | cons c cs ih =>
    simp only [List.cons_append, symPart, splitSep] at ih ⊢
    rcases hsp : splitSep (cs ++ '_' :: ys) with _ | ⟨s, rest⟩
    · exact absurd hsp (splitSep_ne_nil _)
    · have hrest : rest ≠ [] := by
        have h2 := two_le_splitSep_length (l := cs ++ '_' :: ys)
          (by simp)
        rw [hsp] at h2
        simp only [List.length_cons] at h2
        intro hre
        rw [hre] at h2
        simp at h2
      rw [hsp] at ih
      by_cases hc : c = '_'
      · simpa [hc, List.getLastD_cons] using ih
      · rcases rest with _ | ⟨r, rs⟩
        · exact absurd rfl hrest
        · simpa [hc, List.getLastD_cons] using ih

theorem getLastD_default_irrel {α : Type} {l : List α} (h : l ≠ []) (d₁ d₂ : α) :
    l.getLastD d₁ = l.getLastD d₂ := by
  cases l with
  | nil => exact absurd rfl h
  | cons a l' => rw [List.getLastD_cons, List.getLastD_cons]

theorem symPart_length_le (l : Str) : (symPart l).length ≤ l.length := by
  induction l with
  | nil => simp [symPart, splitSep]
  | cons c cs ih =>
    rcases hsp : splitSep cs with _ | ⟨s, rest⟩
    · exact absurd hsp (splitSep_ne_nil cs)
    · have hstep : splitSep (c :: cs) = if c = '_' then [] :: s :: rest else (c :: s) :: rest := by
        simp [splitSep, hsp]
      have ihs : ((s :: rest).getLastD []).length ≤ cs.length := by
        simpa [symPart, hsp] using ih
      by_cases hc : c = '_'
      · rw [symPart, hstep, if_pos hc, List.getLastD_cons]
        calc ((s :: rest).getLastD []).length
            = ((s :: rest).getLastD []).length := rfl
          _ ≤ cs.length := ihs
          _ ≤ (c :: cs).length := by simp
      · rw [symPart, hstep, if_neg hc, List.getLastD_cons]
        rcases rest with _ | ⟨r, rs⟩
        · simp only [List.getLastD_nil, List.length_cons]
          simp only [List.getLastD_cons, List.getLastD_nil] at ihs
          omega
        · calc ((r :: rs).getLastD (c :: s)).length
              = ((r :: rs).getLastD s).length := by
                rw [getLastD_default_irrel (by simp) (c :: s) s]
            _ = ((s :: r :: rs).getLastD []).length := by
                simp only [List.getLastD_cons]
            _ ≤ cs.length := ihs
            _ ≤ (c :: cs).length := by simp

theorem symPart_ne_of_mem {l : Str} (h : '_' ∈ l) : symPart l ≠ l := by
  rcases List.append_of_mem h with ⟨u, v, rfl⟩
  rw [symPart_append_sep]
  intro he
  have h1 : (symPart v).length ≤ v.length := symPart_length_le v
  have h2 := congrArg List.length he
  simp only [List.length_append, List.length_cons] at h2
  omega

/-- The encoded column name in split form: everything before the final
`_{ticker}` suffix, then the separator, then the ticker. -/
theorem colName_split (f : FieldName) (t : Str) :
    colName f t
      = ('(' :: qc :: (fieldStr f ++ qc :: ',' :: ' ' :: qc :: (t ++ [qc, ')']))) ++ '_' :: t := by
  simp [colName, List.append_assoc]

theorem symPart_colName (f : FieldName) (t : Str) :
    symPart (colName f t) = symPart t := by
  rw [colName_split, symPart_append_sep]

/-! ## Lemmas about the sorted union and the merged index -/

theorem mem_insertSorted {a b : Date} {l : List Date} :
    a ∈ insertSorted b l ↔ a = b ∨ a ∈ l := by
  induction l with
  | nil => simp [insertSorted]
  | cons c cs ih =>
    by_cases h1 : b < c
    · simp [insertSorted, h1]
    · by_cases h2 : c < b
      · simp only [insertSorted, if_neg h1, if_pos h2, List.mem_cons, ih]
        tauto
      · have hbc : b = c := le_antisymm (Nat.le_of_not_lt h2) (Nat.le_of_not_lt h1)
        subst hbc
        simp [insertSorted, h1, h2]

theorem insertSorted_ne_nil (b : Date) (l : List Date) : insertSorted b l ≠ [] := by
  intro h
  have : b ∈ insertSorted b l := mem_insertSorted.mpr (Or.inl rfl)
  rw [h] at this
  cases this

theorem sorted_insertSorted {b : Date} {l : List Date}
    (h : List.Sorted (· < ·) l) : List.Sorted (· < ·) (insertSorted b l) := by
  induction l with
  | nil => simp [insertSorted]
  | cons c cs ih =>
    rw [List.sorted_cons] at h
    obtain ⟨h1, h2⟩ := h
    by_cases hb1 : b < c
    · rw [insertSorted, if_pos hb1, List.sorted_cons]
      constructor
      · intro x hx
        rcases List.mem_cons.mp hx with rfl | hx
        · exact hb1
        · exact lt_trans hb1 (h1 x hx)
      · rw [List.sorted_cons]
        exact ⟨h1, h2⟩
    · by_cases hb2 : c < b
      · rw [insertSorted, if_neg hb1, if_pos hb2, List.sorted_cons]
        refine ⟨fun x hx => ?_, ih h2⟩
        rcases mem_insertSorted.mp hx with rfl | hx
        · exact hb2
        · exact h1 x hx
      · have hbc : b = c := le_antisymm (Nat.le_of_not_lt hb2) (Nat.le_of_not_lt hb1)
        subst hbc
        rw [insertSorted, if_neg hb1, if_neg hb2, List.sorted_cons]
        exact ⟨h1, h2⟩

theorem mem_unionSorted {a : Date} {xs ys : List Date} :
    a ∈ unionSorted xs ys ↔ a ∈ xs ∨ a ∈ ys := by
  rw [unionSorted]
  induction ys generalizing xs with
  | nil => simp
  | cons y ys ih =>
    rw [List.foldl_cons, ih]
    rw [mem_insertSorted]
    simp only [List.mem_cons]
    tauto

theorem sorted_unionSorted {xs ys : List Date}
    (h : List.Sorted (· < ·) xs) : List.Sorted (· < ·) (unionSorted xs ys) := by
  rw [unionSorted]
  induction ys generalizing xs with
  | nil => exact h
  | cons y ys ih => exact ih (sorted_insertSorted h)

theorem unionSorted_ne_nil {xs : List Date} (h : xs ≠ []) (ys : List Date) :
    unionSorted xs ys ≠ [] := by
  rcases xs with _ | ⟨x, xs⟩
  · exact absurd rfl h
  · have : x ∈ unionSorted (x :: xs) ys := mem_unionSorted.mpr (Or.inl (by simp))
    exact List.ne_nil_of_mem this

/-- The index component of the merge loop, run on its own. -/
def mergedIndex (s : List (Str × Series)) : List Date :=
  s.foldl (fun i p => if i.isEmpty then datesOf p else unionSorted i (datesOf p)) []

theorem foldl_mergeStep_index (s : List (Str × Series)) :
    ∀ acc : Wide, (s.foldl mergeStep acc).index
      = s.foldl (fun i p => if i.isEmpty then datesOf p else unionSorted i (datesOf p)) acc.index := by
  induction s with
  | nil => intro acc; rfl
  | cons p r ih =>
    intro acc
    rw [List.foldl_cons, List.foldl_cons, ih]
    by_cases h : acc.index.isEmpty <;> simp [mergeStep, h]

theorem merge_index (s : List (Str × Series)) : (merge s).index = mergedIndex s :=
  foldl_mergeStep_index s { index := [], cols := [] }

theorem mem_foldl_index {a : Date} (s : List (Str × Series)) :
    ∀ init : List Date,
      (a ∈ s.foldl (fun i p => if i.isEmpty then datesOf p else unionSorted i (datesOf p)) init
        ↔ a ∈ init ∨ ∃ p ∈ s, a ∈ datesOf p) := by
  induction s with
  | nil => intro init; simp
  | cons q r ih =>
    intro init
    rw [List.foldl_cons, ih]
    have hstep : a ∈ (if init.isEmpty then datesOf q else unionSorted init (datesOf q))
        ↔ a ∈ init ∨ a ∈ datesOf q := by
      rcases init with _ | ⟨i, is⟩
      · simp
      · simp only [List.isEmpty_cons, if_neg (by decide : ¬false = true)]
        exact mem_unionSorted
    rw [hstep]
    simp only [List.mem_cons]
    constructor
    · rintro ((h | h) | ⟨p, hp, hd⟩)
      · exact Or.inl h
      · exact Or.inr ⟨q, Or.inl rfl, h⟩
      · exact Or.inr ⟨p, Or.inr hp, hd⟩
    · rintro (h | ⟨p, (rfl | hp), hd⟩)
      · exact Or.inl (Or.inl h)
      · exact Or.inl (Or.inr hd)
      · exact Or.inr ⟨p, hp, hd⟩

theorem mem_mergedIndex {a : Date} (s : List (Str × Series)) :
    a ∈ mergedIndex s ↔ ∃ p ∈ s, a ∈ datesOf p := by
  rw [mergedIndex, mem_foldl_index]
  simp

theorem sorted_foldl_index (s : List (Str × Series)) :
    ∀ init : List Date, List.Sorted (· < ·) init →
      (∀ p ∈ s, List.Sorted (· < ·) (datesOf p)) →
      List.Sorted (· < ·)
        (s.foldl (fun i p => if i.isEmpty then datesOf p else unionSorted i (datesOf p)) init) := by
  induction s with
  | nil => intro init hi _; exact hi
  | cons q r ih =>
    intro init hi hall
    rw [List.foldl_cons]
    refine ih _ ?_ (fun p hp => hall p (List.mem_cons_of_mem q hp))
    by_cases he : init.isEmpty
    · rw [if_pos he]; exact hall q (List.mem_cons_self q r)
    · rw [if_neg he]; exact sorted_unionSorted hi

theorem sorted_mergedIndex (s : List (Str × Series))
    (h : ∀ p ∈ s, List.Sorted (· < ·) (datesOf p)) :
    List.Sorted (· < ·) (mergedIndex s) :=
  sorted_foldl_index s [] (by simp) h

theorem mergedIndex_nodup (s : List (Str × Series))
    (h : ∀ p ∈ s, List.Sorted (· < ·) (datesOf p)) : (mergedIndex s).Nodup :=
  (sorted_mergedIndex s h).nodup

theorem foldl_mergeStep_cols (s : List (Str × Series)) :
    ∀ acc : Wide, acc.index ≠ [] →
      (s.foldl mergeStep acc).cols = acc.cols ++ colsAll s := by
  induction s with
  | nil => intro acc _; simp [colsAll]
  | cons p r ih =>
    intro acc hne
    rw [List.foldl_cons]
    have hstep : mergeStep acc p
        = { index := unionSorted acc.index (datesOf p), cols := acc.cols ++ seriesCols p.1 p.2 } := by
      rw [mergeStep, if_neg (by simpa [List.isEmpty_iff] using hne)]
    rw [hstep, ih _ (unionSorted_ne_nil hne _), colsAll]
    simp [List.append_assoc]

theorem merge_cols (s : List (Str × Series)) (h : ∀ p ∈ s, p.2 ≠ []) :
    (merge s).cols = colsAll s := by
  rcases s with _ | ⟨p, r⟩
  · rfl
  · rw [merge, List.foldl_cons]
    have hfirst : mergeStep { index := [], cols := [] } p
        = { index := datesOf p, cols := seriesCols p.1 p.2 } := by
      rw [mergeStep]
      simp
    rw [hfirst]
    have hne : datesOf p ≠ [] := by
      have := h p (List.mem_cons_self p r)
      simp [datesOf]
      exact this
    rw [foldl_mergeStep_cols r _ hne, colsAll]

/-! ## Injectivity of the column-name encoding -/

theorem colName_inj {f g : FieldName} {t u : Str} (h : colName f t = colName g u) :
    f = g ∧ t = u := by
  have h0 : fieldStr f ++ qc :: ',' :: ' ' :: qc :: (t ++ qc :: ')' :: '_' :: t)
      = fieldStr g ++ qc :: ',' :: ' ' :: qc :: (u ++ qc :: ')' :: '_' :: u) := by
    simpa [colName] using h
  have hfg : f = g := by
    cases f <;> cases g <;> simp_all [fieldStr]
  subst hfg
  refine ⟨rfl, ?_⟩
  have h1 : qc :: ',' :: ' ' :: qc :: (t ++ qc :: ')' :: '_' :: t)
      = qc :: ',' :: ' ' :: qc :: (u ++ qc :: ')' :: '_' :: u) :=
    List.append_cancel_left h0
  have h2 : t ++ qc :: ')' :: '_' :: t = u ++ qc :: ')' :: '_' :: u := by
    simpa using h1
  have hlen : t.length = u.length := by
    have := congrArg List.length h2
    simp only [List.length_append, List.length_cons] at this
    omega
  exact (List.append_inj h2 hlen).1

theorem mem_fieldsList (f : FieldName) : f ∈ fieldsList := by
  cases f <;> simp [fieldsList]

theorem seriesCols_keys (t : Str) (s : Series) :
    (seriesCols t s).map Prod.fst = fieldsList.map (fun f => colName f t) := by
  simp [seriesCols]

theorem mem_colsAll_keys {a : Str} (s : List (Str × Series)) :
    a ∈ (colsAll s).map Prod.fst ↔ ∃ q ∈ s, ∃ f, a = colName f q.1 := by
  induction s with
  | nil => simp [colsAll]
  | cons p r ih =>
    simp only [colsAll, List.map_append, List.mem_append, ih, seriesCols_keys, List.mem_map]
    constructor
    · rintro (⟨f, _, rfl⟩ | ⟨q, hq, f, rfl⟩)
      · exact ⟨p, List.mem_cons_self p r, f, rfl⟩
      · exact ⟨q, List.mem_cons_of_mem p hq, f, rfl⟩
    · rintro ⟨q, hq, f, rfl⟩
      rcases List.mem_cons.mp hq with rfl | hq
      · exact Or.inl ⟨f, mem_fieldsList f, rfl⟩
      · exact Or.inr ⟨q, hq, f, rfl⟩

theorem nodup_colsAll_keys (s : List (Str × Series)) (hnd : (s.map Prod.fst).Nodup) :
    ((colsAll s).map Prod.fst).Nodup := by
  induction s with
  | nil => simp [colsAll]
  | cons p r ih =>
    simp only [List.map_cons, List.nodup_cons] at hnd
    simp only [colsAll, List.map_append, List.nodup_append]
    refine ⟨?_, ih hnd.2, ?_⟩
    · rw [seriesCols_keys]
      refine List.Nodup.map (fun a b hab => (colName_inj hab).1) ?_
      decide
    · intro a ha hb
      rw [seriesCols_keys, List.mem_map] at ha
      rcases ha with ⟨f, _, rfl⟩
      rcases (mem_colsAll_keys r).mp hb with ⟨q, hq, g, he⟩
      have := (colName_inj he).2
      exact hnd.1 (this ▸ List.mem_map_of_mem Prod.fst hq)

/-! ## Permutation lemmas for the column list -/

theorem colsAll_perm {s₁ s₂ : List (Str × Series)} (hp : s₁.Perm s₂) :
    (colsAll s₁).Perm (colsAll s₂) := by
  induction hp with
  | nil => exact List.Perm.refl _
  | cons x _ ih => exact List.Perm.append_left _ ih
  | swap x y l =>
    simp only [colsAll]
    rw [← List.append_assoc, ← List.append_assoc]
    exact List.Perm.append_right _ List.perm_append_comm
  | trans _ _ ih1 ih2 => exact ih1.trans ih2

theorem find_col_perm {l₁ l₂ : List Col} (hp : l₁.Perm l₂) :
    (l₁.map Prod.fst).Nodup →
      ∀ name : Str, l₁.find? (fun c => c.1 = name) = l₂.find? (fun c => c.1 = name) := by
  induction hp with
  | nil => intro _ _; rfl
  | cons x _ ih =>
    intro hnd name
    simp only [List.map_cons, List.nodup_cons] at hnd
    by_cases hx : x.1 = name
    · simp [List.find?_cons, hx]
    · rw [List.find?_cons, List.find?_cons, decide_eq_false hx]
      exact ih hnd.2 name
  | swap x y l =>
    intro hnd name
    simp only [List.map_cons, List.nodup_cons, List.mem_cons, List.mem_map] at hnd
    have hxy : y.1 ≠ x.1 := fun he => hnd.1 (Or.inl he)
    by_cases hx : x.1 = name <;> by_cases hy : y.1 = name
    · exact absurd (hy.trans hx.symm) hxy
    · simp [List.find?_cons, hx, hy]
    · simp [List.find?_cons, hx, hy]
    · simp [List.find?_cons, hx, hy]
  | trans h12 _ ih12 ih23 =>
    intro hnd name
    rw [ih12 hnd name, ih23 (((h12.map Prod.fst).nodup_iff).mp hnd) name]

/-! ## Sorted lists with the same members are equal -/

theorem eq_of_sorted_of_mem_iff {l₁ l₂ : List Date}
    (h₁ : List.Sorted (· < ·) l₁) (h₂ : List.Sorted (· < ·) l₂)
    (hm : ∀ a, a ∈ l₁ ↔ a ∈ l₂) : l₁ = l₂ := by
  haveI : IsAntisymm Date (· < ·) := ⟨fun a b hab hba => absurd hba (Nat.lt_asymm hab)⟩
  have hn₁ : l₁.Nodup := h₁.imp (fun hab => Nat.ne_of_lt hab)
  have hn₂ : l₂.Nodup := h₂.imp (fun hab => Nat.ne_of_lt hab)
  exact List.eq_of_perm_of_sorted ((List.perm_ext_iff_of_nodup hn₁ hn₂).mpr hm) h₁ h₂

theorem startsParen_colName (f : FieldName) (t : Str) : startsParen (colName f t) = true := rfl

/-! ## Claim C1: symbol recovery from encoded column names -/

/-- C1, counterexample: for the encoded column of symbol `A_B` (which
contains the separator), the Symbol Extractor returns `B`, not the whole
symbol `A_B`; and even the spec's first-occurrence split would return
`B')_A_B`, not `A_B`. -/
theorem C1_counterexample :
    symPart (colName FieldName.Open ['A', '_', 'B']) = ['B']
      ∧ (['B'] : Str) ≠ ['A', '_', 'B']
      ∧ afterFirstSep (colName FieldName.Open ['A', '_', 'B']) ≠ ['A', '_', 'B'] := by
  decide

/-- C1, amended: the Symbol Extractor splits the encoded column name at
the *last* occurrence of the separator — on `colName f t` it returns the
last separator-free segment of `t` itself — so whenever the symbol
contains the separator the extractor does not recover it whole. -/
theorem C1_amended (f : FieldName) (t : Str) :
    symPart (colName f t) = symPart t ∧ ('_' ∈ t → symPart (colName f t) ≠ t) := by
  refine ⟨symPart_colName f t, fun hm => ?_⟩
  rw [symPart_colName]
  exact symPart_ne_of_mem hm

theorem C1_amended_witness :
    ('_' ∈ (['A', '_', 'B'] : Str))
      ∧ (symPart (colName FieldName.Open ['A', '_', 'B']) = symPart ['A', '_', 'B']
          ∧ ('_' ∈ (['A', '_', 'B'] : Str) →
              symPart (colName FieldName.Open ['A', '_', 'B']) ≠ ['A', '_', 'B'])) :=
  ⟨by decide, C1_amended FieldName.Open ['A', '_', 'B']⟩

/-! ## Claim C2: extraction after merge returns the supplied key set -/

/-- C2: for a mapping from symbols to non-empty Series in which no
symbol contains the separator, extracting symbols from the merged
table's columns returns exactly the key set of the mapping. -/
theorem C2_extract_merge (s : List (Str × Series))
    (hne : ∀ p ∈ s, p.2 ≠ []) (hsep : ∀ p ∈ s, '_' ∉ p.1) :
    extract_symbols (wideColumns (merge s)) = (s.map Prod.fst).toFinset := by
  ext a
  simp only [extract_symbols, wideColumns, merge_cols s hne, List.mem_toFinset, List.mem_map,
    List.mem_filter, List.mem_cons]
  constructor
  · rintro ⟨c, ⟨hc | hc, hsp⟩, rfl⟩
    · rw [hc] at hsp
      exact absurd hsp (by decide)
    · rcases (mem_colsAll_keys s).mp (by simpa [List.mem_map] using hc) with ⟨q, hq, f, rfl⟩
      rw [symPart_colName, symPart_of_not_mem (hsep q hq)]
      exact ⟨q, hq, rfl⟩
  · rintro ⟨q, hq, rfl⟩
    refine ⟨colName FieldName.Open q.1, ⟨Or.inr ?_, startsParen_colName _ _⟩, ?_⟩
    · simpa [List.mem_map] using (mem_colsAll_keys s).mpr ⟨q, hq, FieldName.Open, rfl⟩
    · rw [symPart_colName, symPart_of_not_mem (hsep q hq)]

theorem C2_extract_merge_witness :
    (∀ p ∈ [((['A'] : Str), [((1 : Date), OHLC.mk 10 11 9 10)]),
            ((['B'] : Str), [((2 : Date), OHLC.mk 20 21 19 20)])], p.2 ≠ [])
      ∧ (∀ p ∈ [((['A'] : Str), [((1 : Date), OHLC.mk 10 11 9 10)]),
                ((['B'] : Str), [((2 : Date), OHLC.mk 20 21 19 20)])], '_' ∉ p.1)
      ∧ extract_symbols (wideColumns (merge
          [((['A'] : Str), [((1 : Date), OHLC.mk 10 11 9 10)]),
           ((['B'] : Str), [((2 : Date), OHLC.mk 20 21 19 20)])]))
        = ([((['A'] : Str), [((1 : Date), OHLC.mk 10 11 9 10)]),
            ((['B'] : Str), [((2 : Date), OHLC.mk 20 21 19 20)])].map Prod.fst).toFinset :=
  ⟨by decide, by decide, C2_extract_merge _ (by decide) (by decide)⟩

/-! ## Claim C8: empty series are excluded from the date union -/

theorem foldl_index_filter_empty (s : List (Str × Series)) :
    ∀ init : List Date,
      s.foldl (fun i p => if i.isEmpty then datesOf p else unionSorted i (datesOf p)) init
        = (s.filter (fun p => !p.2.isEmpty)).foldl
            (fun i p => if i.isEmpty then datesOf p else unionSorted i (datesOf p)) init := by
  induction s with
  | nil => intro init; rfl
  | cons p r ih =>
    intro init
    by_cases hp : p.2.isEmpty
    · have hd : datesOf p = [] := by
        rcases p with ⟨t, sr⟩
        rcases sr with _ | _
        · rfl
        · simp at hp
      have hfil : (p :: r).filter (fun p => !p.2.isEmpty) = r.filter (fun p => !p.2.isEmpty) := by
        simp [List.filter_cons, hp]
      have hstep : (if init.isEmpty then datesOf p else unionSorted init (datesOf p)) = init := by
        by_cases hi : init.isEmpty
        · rw [if_pos hi, hd]
          exact (List.isEmpty_iff.mp hi).symm
        · rw [if_neg hi, hd]
          rfl
      rw [hfil, List.foldl_cons, hstep, ih]
    · have hfil : (p :: r).filter (fun p => !p.2.isEmpty)
          = p :: r.filter (fun p => !p.2.isEmpty) := by
        simp [List.filter_cons, hp]
      rw [hfil, List.foldl_cons, List.foldl_cons, ih]

/-- C8: a symbol whose Series is empty contributes nothing: the merged
index is the same as the merged index of the mapping with all empty
Series removed, and a date is in the merged index exactly when some
symbol with a non-empty Series covers it.  The merge is total — it never
aborts. -/
theorem C8_empty_series_excluded (s : List (Str × Series)) :
    (merge s).index = (merge (s.filter (fun p => !p.2.isEmpty))).index
      ∧ ∀ d : Date, d ∈ (merge s).index ↔ ∃ p ∈ s, p.2 ≠ [] ∧ d ∈ datesOf p := by
  constructor
  · rw [merge_index, merge_index, mergedIndex, mergedIndex]
    exact foldl_index_filter_empty s []
  · intro d
    rw [merge_index, mem_mergedIndex]
    constructor
    · rintro ⟨p, hp, hd⟩
      refine ⟨p, hp, ?_, hd⟩
      intro he
      rw [datesOf, he] at hd
      cases hd
    · rintro ⟨p, hp, _, hd⟩
      exact ⟨p, hp, hd⟩

/-! ## Counting the missing cells (claim C3) -/

theorem lookupD_isSome (d : Date) (l : List (Date × ℚ)) :
    (lookupD d l).isSome = true ↔ d ∈ l.map Prod.fst := by
  rw [lookupD]
  induction l with
  | nil => simp
  | cons p r ih =>
    by_cases hp : p.1 = d
    · simp [List.find?_cons, hp]
    · simp [List.find?_cons, hp, ih, Ne.symm hp]

theorem lookupD_isNone (d : Date) (l : List (Date × ℚ)) :
    (lookupD d l).isNone = true ↔ d ∉ l.map Prod.fst := by
  constructor
  · intro h hm
    have hs := (lookupD_isSome d l).mpr hm
    cases hop : lookupD d l with
    | none => rw [hop] at hs; exact absurd hs (by simp)
    | some v => rw [hop] at h; exact absurd h (by simp)
  · intro hm
    cases hop : lookupD d l with
    | none => simp
    | some v =>
      exfalso
      exact hm ((lookupD_isSome d l).mp (by rw [hop]; rfl))

theorem filter_length_split (q : α → Bool) (l : List α) :
    (l.filter q).length + (l.filter (fun a => !q a)).length = l.length := by
  induction l with
  | nil => rfl
  | cons a r ih =>
    by_cases h : q a <;> simp [List.filter_cons, h] <;> omega

theorem filter_mem_length {idx keys : List Date} (hnd : idx.Nodup)
    (hsub : ∀ d ∈ keys, d ∈ idx) :
    (idx.filter (fun d => decide (d ∈ keys))).length = keys.toFinset.card := by
  have hndf : (idx.filter (fun d => decide (d ∈ keys))).Nodup := hnd.filter _
  rw [← List.toFinset_card_of_nodup hndf]
  congr 1
  ext a
  simp only [List.mem_toFinset, List.mem_filter, decide_eq_true_eq]
  exact ⟨fun h => h.2, fun h => ⟨hsub a h, h⟩⟩

theorem colMissing_col (idx : List Date) (hnd : idx.Nodup) (t : Str) (sr : Series)
    (f : FieldName) (hsub : ∀ d ∈ sr.map Prod.fst, d ∈ idx) :
    colMissing idx (colName f t, sr.map (fun p => (p.1, fieldVal f p.2)))
      = idx.length - (sr.map Prod.fst).toFinset.card := by
  rw [colMissing, List.countP_eq_length_filter]
  have hpred : ∀ d ∈ idx,
      ((lookupD d (sr.map (fun p => (p.1, fieldVal f p.2)))).isNone : Bool)
        = !(decide (d ∈ sr.map Prod.fst)) := by
    intro d _
    by_cases hm : d ∈ sr.map Prod.fst
    · have h1 : (lookupD d (sr.map (fun p => (p.1, fieldVal f p.2)))).isSome = true := by
        rw [lookupD_isSome]
        simpa [List.map_map, Function.comp] using hm
      rw [decide_eq_true hm]
      cases hop : lookupD d (sr.map (fun p => (p.1, fieldVal f p.2))) with
      | none => rw [hop] at h1; exact absurd h1 (by simp)
      | some v => simp
    · have h1 : (lookupD d (sr.map (fun p => (p.1, fieldVal f p.2)))).isNone = true := by
        rw [lookupD_isNone]
        simpa [List.map_map, Function.comp] using hm
      rw [decide_eq_false hm]
      simp [h1]
  rw [List.filter_congr hpred]
  have hsplit := filter_length_split (fun d => decide (d ∈ sr.map Prod.fst)) idx
  have hmemlen := filter_mem_length hnd hsub
  have hcard : (sr.map Prod.fst).toFinset.card ≤ idx.length := by
    rw [← hmemlen]
    have := List.length_filter_le (fun d => decide (d ∈ sr.map Prod.fst)) idx
    exact this
  omega

theorem sum_colMissing (idx : List Date) (hnd : idx.Nodup) :
    ∀ s : List (Str × Series), (∀ p ∈ s, ∀ d ∈ datesOf p, d ∈ idx) →
      ((colsAll s).map (fun c => colMissing idx c)).sum
        = (s.map (fun p => 4 * (idx.length - (datesOf p).toFinset.card))).sum := by
  intro s
  induction s with
  | nil => intro _; rfl
  | cons p r ih =>
    intro hsub
    have hsubp : ∀ d ∈ datesOf p, d ∈ idx := hsub p (List.mem_cons_self p r)
    have hcols : ((seriesCols p.1 p.2).map (fun c => colMissing idx c)).sum
        = 4 * (idx.length - (datesOf p).toFinset.card) := by
      have hone : ∀ f : FieldName,
          colMissing idx (colName f p.1, p.2.map (fun q => (q.1, fieldVal f q.2)))
            = idx.length - (datesOf p).toFinset.card := by
        intro f
        exact colMissing_col idx hnd p.1 p.2 f (by simpa [datesOf] using hsubp)
      simp only [seriesCols, fieldsList, List.map_cons, List.map_nil, List.sum_cons,
        List.sum_nil, hone]
      omega
    simp only [colsAll, List.map_append, List.sum_append, List.map_cons, List.sum_cons, hcols]
    rw [ih (fun q hq => hsub q (List.mem_cons_of_mem p hq))]

theorem mem_flattenDates {d : Date} (s : List (Str × Series)) :
    d ∈ flattenDates s ↔ ∃ p ∈ s, d ∈ datesOf p := by
  induction s with
  | nil => simp [flattenDates]
  | cons p r ih =>
    simp only [flattenDates, List.mem_append, ih, List.mem_cons]
    constructor
    · rintro (h | ⟨q, hq, hd⟩)
      · exact ⟨p, Or.inl rfl, h⟩
      · exact ⟨q, Or.inr hq, hd⟩
    · rintro ⟨q, (rfl | hq), hd⟩
      · exact Or.inl hd
      · exact Or.inr ⟨q, hq, hd⟩

/-! ## Claim C3: row count and missing-value count of the merge -/

/-- C3, counterexample: with a failed-fetch (empty) Series supplied
first, the merge drops that symbol's columns entirely, so the
missing-value count is 0 while the claimed formula (4 per uncovered
(symbol, date) pair, summed over all supplied symbols) gives 4 — the
date ranges being disjoint and each Series sorted. -/
theorem C3_counterexample :
    (sEmptyA.Pairwise (fun p q => ∀ d ∈ datesOf p, d ∉ datesOf q))
      ∧ (∀ p ∈ sEmptyA, List.Sorted (· < ·) (datesOf p))
      ∧ missingCount (merge sEmptyA) = 0
      ∧ (sEmptyA.map
          (fun p => 4 * ((flattenDates sEmptyA).toFinset.card - (datesOf p).toFinset.card))).sum
        = 4 := by
  decide

/-- C3, amended: for per-symbol Series with sorted unique dates,
pairwise-disjoint date ranges, and every Series *non-empty*, the merged
table has one ascending row per date in the union of all dates, its row
count is the size of that union, and its missing-value count is the sum
over symbols of 4 for every union date not covered by that symbol. -/
theorem C3_amended (s : List (Str × Series))
    (hsorted : ∀ p ∈ s, List.Sorted (· < ·) (datesOf p))
    (hne : ∀ p ∈ s, p.2 ≠ [])
    (hdisj : s.Pairwise (fun p q => ∀ d ∈ datesOf p, d ∉ datesOf q)) :
    List.Sorted (· < ·) (merge s).index
      ∧ (∀ d, d ∈ (merge s).index ↔ d ∈ flattenDates s)
      ∧ (merge s).index.length = (flattenDates s).toFinset.card
      ∧ missingCount (merge s)
          = (s.map
              (fun p => 4 * ((flattenDates s).toFinset.card - (datesOf p).toFinset.card))).sum := by
  have hsortedIdx : List.Sorted (· < ·) (merge s).index := by
    rw [merge_index]
    exact sorted_mergedIndex s hsorted
  have hmem : ∀ d, d ∈ (merge s).index ↔ d ∈ flattenDates s := by
    intro d
    rw [merge_index, mem_mergedIndex, mem_flattenDates]
  have hnd : (merge s).index.Nodup := hsortedIdx.nodup
  have hlen : (merge s).index.length = (flattenDates s).toFinset.card := by
    rw [← List.toFinset_card_of_nodup hnd]
    congr 1
    ext a
    simp only [List.mem_toFinset]
    exact hmem a
  refine ⟨hsortedIdx, hmem, hlen, ?_⟩
  have hsub : ∀ p ∈ s, ∀ d ∈ datesOf p, d ∈ (merge s).index := by
    intro p hp d hd
    exact (hmem d).mpr ((mem_flattenDates s).mpr ⟨p, hp, hd⟩)
  have hsum := sum_colMissing ((merge s).index) hnd s hsub
  rw [missingCount, merge_cols s hne, hsum]
  have hmap : s.map (fun p => 4 * ((merge s).index.length - (datesOf p).toFinset.card))
      = s.map (fun p => 4 * ((flattenDates s).toFinset.card - (datesOf p).toFinset.card)) := by
    refine List.map_congr_left ?_
    intro p _
    rw [hlen]
  rw [hmap]

theorem C3_amended_witness :
    (∀ p ∈ sAB, List.Sorted (· < ·) (datesOf p))
      ∧ (∀ p ∈ sAB, p.2 ≠ [])
      ∧ (sAB.Pairwise (fun p q => ∀ d ∈ datesOf p, d ∉ datesOf q))
      ∧ (List.Sorted (· < ·) (merge sAB).index
          ∧ (∀ d, d ∈ (merge sAB).index ↔ d ∈ flattenDates sAB)
          ∧ (merge sAB).index.length = (flattenDates sAB).toFinset.card
          ∧ missingCount (merge sAB)
              = (sAB.map
                  (fun p =>
                    4 * ((flattenDates sAB).toFinset.card - (datesOf p).toFinset.card))).sum) :=
  ⟨by decide, by decide, by decide, C3_amended sAB (by decide) (by decide) (by decide)⟩

/-! ## Claim C4: projection keeps the chronologically last rows -/

theorem maximum_drop {l : List Date} (hs : List.Sorted (· < ·) l) :
    ∀ m, l.drop m ≠ [] → (l.drop m).maximum = l.maximum := by
  induction l with
  | nil => intro m h; simp at h
  | cons x xs ih =>
    intro m h
    cases m with
    | zero => rfl
    | succ m' =>
      rw [List.drop_succ_cons] at h ⊢
      rw [ih hs.of_cons m' h]
      have hxs : xs ≠ [] := by
        intro he
        rw [he, List.drop_nil] at h
        exact h rfl
      rcases xs with _ | ⟨y, ys⟩
      · exact absurd rfl hxs
      · have hx : (↑x : WithBot ℕ) ≤ (y :: ys).maximum :=
          le_trans (WithBot.coe_le_coe.mpr
            (le_of_lt ((List.sorted_cons.mp hs).1 y (by simp))))
            (List.le_maximum_of_mem' (List.mem_cons_self y ys))
        conv_rhs => rw [List.maximum_cons]
        exact (max_eq_right hx).symm

/-- C4: for any wide table with ascending date index, any symbol with at
least one complete row and any row limit `k`, the projection returns
exactly `min k (number of complete rows)` rows, and (for a positive
limit) the largest date among the returned rows is the largest date
among all complete rows of that symbol. -/
theorem C4_project_tail (w : Wide) (t : Str) (k : ℕ)
    (hs : List.Sorted (· < ·) w.index) (hne : completeDates w t ≠ []) :
    (project w t k).length = min k (completeDates w t).length
      ∧ (0 < k →
          ((project w t k).map Prod.fst).maximum = (completeDates w t).maximum) := by
  have hdates : (projectRows w t).map Prod.fst = completeDates w t := by
    rw [projectRows, List.map_map]
    show List.map (fun d => d) (completeDates w t) = completeDates w t
    exact List.map_id _
  have hlenrows : (projectRows w t).length = (completeDates w t).length := by
    rw [← hdates, List.length_map]
  constructor
  · rw [project, tailK, List.length_drop]
    omega
  · intro hk
    have hmap : (project w t k).map Prod.fst = tailK k (completeDates w t) := by
      rw [project, tailK, tailK, List.map_drop, hdates, hlenrows]
    rw [hmap]
    have hsc : List.Sorted (· < ·) (completeDates w t) := by
      rw [completeDates]
      exact hs.filter _
    have hpos : 0 < (completeDates w t).length := List.length_pos.mpr hne
    have hnn : (completeDates w t).drop ((completeDates w t).length - k) ≠ [] := by
      intro he
      have := congrArg List.length he
      rw [List.length_drop, List.length_nil] at this
      omega
    rw [tailK]
    exact maximum_drop hsc _ hnn

theorem C4_project_tail_witness :
    List.Sorted (· < ·) wC4.index
      ∧ completeDates wC4 ['T'] ≠ []
      ∧ ((project wC4 ['T'] 1).length = min 1 (completeDates wC4 ['T']).length
          ∧ (0 < 1 →
              ((project wC4 ['T'] 1).map Prod.fst).maximum
                = (completeDates wC4 ['T']).maximum)) :=
  ⟨by decide, by decide, C4_project_tail wC4 ['T'] 1 (by decide) (by decide)⟩

/-! ## Claim C5: fewer than four matching columns -/

/-- C5, counterexample: ticker `T` has only two matching columns, and
the batch run over `[T, U]` aborts with the uncaught rename error
instead of skipping `T` — `U` is never processed. -/
theorem C5_counterexample :
    (matchingCols wPartialT ['T']).length = 2
      ∧ generate_candlestick_charts wPartialT rTrue [['T'], ['U']] = Except.error ['T'] := by
  decide

/-- C5, amended: only the interactive path guards the column count — for
fewer than four matching columns `update_chart` surfaces the
insufficient-columns skip message — while the batch path raises an
uncaught rename error for the same symbol. -/
theorem C5_amended (w : Wide) (r : Renderer) (t : Str)
    (h : (matchingCols w t).length < 4) :
    update_chart w r t = Except.ok ChartOutcome.insufficientColumns
      ∧ batchOne w r t = Except.error t := by
  constructor
  · simp [update_chart, h]
  · have hne : ¬ (matchingCols w t).length = 4 := by omega
    simp [batchOne, hne]

theorem C5_amended_witness :
    (matchingCols wPartialT ['T']).length < 4
      ∧ (update_chart wPartialT rTrue ['T'] = Except.ok ChartOutcome.insufficientColumns
          ∧ batchOne wPartialT rTrue ['T'] = Except.error ['T']) :=
  ⟨by decide, C5_amended wPartialT rTrue ['T'] (by decide)⟩

/-! ## Claim C6: zero complete rows and absent symbols -/

/-- C6, counterexample: for a symbol entirely absent from the table the
batch path does not return an empty-result skip — it aborts with the
uncaught rename error (zero columns cannot be renamed to four names). -/
theorem C6_counterexample :
    matchingCols wOnlyU ['X'] = []
      ∧ generate_candlestick_charts wOnlyU rTrue [['X']] = Except.error ['X'] := by
  decide

/-- C6, amended: for a symbol that has its full four matching columns
but zero complete rows, both paths skip without error (the batch path
with the empty-result skip, the interactive path with the no-valid-data
message); a symbol entirely absent from the table is skipped only by the
interactive path's column guard, while the batch path raises. -/
theorem C6_amended (w : Wide) (r : Renderer) (t : Str)
    (h4 : (matchingCols w t).length = 4) (hrows : projectRows w t = []) :
    batchOne w r t = Except.ok BatchStatus.emptySkip
      ∧ update_chart w r t = Except.ok ChartOutcome.noValidData := by
  have hlt : ¬ (matchingCols w t).length < 4 := by omega
  constructor
  · simp [batchOne, h4, hrows]
  · simp [update_chart, hlt, h4, hrows]

theorem C6_amended_witness :
    (matchingCols wNoRows ['T']).length = 4
      ∧ projectRows wNoRows ['T'] = []
      ∧ (batchOne wNoRows rTrue ['T'] = Except.ok BatchStatus.emptySkip
          ∧ update_chart wNoRows rTrue ['T'] = Except.ok ChartOutcome.noValidData) :=
  ⟨by decide, by decide, C6_amended wNoRows rTrue ['T'] (by decide) (by decide)⟩

/-! ## Claim C7: render failures are isolated -/

/-- C7: in the batch loop, render failures (the oracle `r` returning
`false`) never abort the run — whenever every requested symbol has its
four matching columns, the run returns a status for every symbol, for
any renderer behaviour; and in the interactive path a render failure is
surfaced as the caught-error diagnostic, never an uncaught exception. -/
theorem C7_render_isolation :
    (∀ (w : Wide) (r : Renderer) (ts : List Str),
        (∀ t ∈ ts, (matchingCols w t).length = 4) →
        ∃ l, generate_candlestick_charts w r ts = Except.ok l ∧ l.map Prod.fst = ts)
      ∧ (∀ (w : Wide) (r : Renderer) (t : Str),
          (matchingCols w t).length = 4 → projectRows w t ≠ [] →
          r t (projectRows w t) = false →
          update_chart w r t = Except.ok ChartOutcome.plotError) := by
  constructor
  · intro w r ts
    induction ts with
    | nil => intro _; exact ⟨[], rfl, rfl⟩
    | cons t ts ih =>
      intro h
      have ht := h t (List.mem_cons_self t ts)
      obtain ⟨l, hl, hmap⟩ := ih (fun u hu => h u (List.mem_cons_of_mem t hu))
      have hb : ∃ st, batchOne w r t = Except.ok st := by
        rw [batchOne, if_pos ht]
        by_cases he : (projectRows w t).isEmpty
        · refine ⟨BatchStatus.emptySkip, ?_⟩
          simp [he]
        · by_cases hr : r t (tailK 500 (projectRows w t))
          · refine ⟨BatchStatus.plotDone, ?_⟩
            simp [he, hr]
          · refine ⟨BatchStatus.plotFail, ?_⟩
            simp [he, hr]
      obtain ⟨st, hst⟩ := hb
      refine ⟨(t, st) :: l, ?_, by simp [hmap]⟩
      rw [generate_candlestick_charts, hst, hl]
  · intro w r t h4 hne hr
    have hlt : ¬ (matchingCols w t).length < 4 := by omega
    have hemp : (projectRows w t).isEmpty = false := by
      rcases hpr : projectRows w t with _ | _
      · exact absurd hpr hne
      · rfl
    simp [update_chart, hlt, h4, hemp, hr]

theorem C7_render_isolation_witness :
    ((∀ t ∈ [(['T'] : Str)], (matchingCols wC4 t).length = 4)
        ∧ ∃ l, generate_candlestick_charts wC4 rFalse [['T']] = Except.ok l
            ∧ l.map Prod.fst = [['T']])
      ∧ ((matchingCols wC4 ['T']).length = 4
          ∧ projectRows wC4 ['T'] ≠ []
          ∧ rFalse ['T'] (projectRows wC4 ['T']) = false
          ∧ update_chart wC4 rFalse ['T'] = Except.ok ChartOutcome.plotError) :=
  ⟨⟨by decide, C7_render_isolation.1 wC4 rFalse [['T']] (by decide)⟩,
   by decide, by decide, by decide,
   C7_render_isolation.2 wC4 rFalse ['T'] (by decide) (by decide) (by decide)⟩

/-! ## Claim C9: projection never mutates the source table -/

theorem readH_append_lt {h : Heap} {df : ℕ} (hdf : df < h.length) (w : Wide) :
    readH (h ++ [w]) df = readH h df := by
  rw [readH, readH, List.getD_eq_getElem?_getD, List.getD_eq_getElem?_getD,
    List.getElem?_append_left hdf]

theorem readH_set_ne {h : Heap} {i j : ℕ} (hne : i ≠ j) (w : Wide) :
    readH (writeH h i w) j = readH h j := by
  rw [readH, readH, writeH, List.getD_eq_getElem?_getD, List.getD_eq_getElem?_getD,
    List.getElem?_set_ne hne]

theorem readH_pipeline (h : Heap) (df : ℕ) (hdf : df < h.length) (a b c : Wide) :
    readH (writeH (writeH (h ++ [a]) h.length b) h.length c) df = readH h df := by
  have hne : h.length ≠ df := fun he => absurd (he ▸ hdf) (lt_irrefl _)
  rw [readH_set_ne hne, readH_set_ne hne, readH_append_lt hdf]

/-- C9: neither the batch projection pipeline (`df[columns]`, rename,
`dropna(inplace=True)`, `tail`) nor the interactive one mutates the
shared source frame: the heap cell of `df` after either pipeline equals
its value before, all in-place operations having hit only the fresh copy
made by the column selection. -/
theorem C9_projection_pure (h : Heap) (df : ℕ) (t : Str) (k : ℕ) (hdf : df < h.length) :
    readH (batchProjectOps h df t k).1 df = readH h df
      ∧ readH (interactiveProjectOps h df t).1 df = readH h df := by
  constructor
  · simp only [batchProjectOps, allocH]
    have hlen : ∀ a b c : Wide,
        df < (writeH (writeH (h ++ [a]) h.length b) h.length c).length := by
      intro a b c
      simp only [writeH, List.length_set, List.length_append, List.length_cons,
        List.length_nil]
      omega
    rw [readH_append_lt (hlen _ _ _), readH_pipeline h df hdf]
  · simp only [interactiveProjectOps, allocH]
    rw [readH_pipeline h df hdf]

theorem C9_projection_pure_witness :
    0 < ([wC4] : Heap).length
      ∧ (readH (batchProjectOps [wC4] 0 ['T'] 500).1 0 = readH [wC4] 0
          ∧ readH (interactiveProjectOps [wC4] 0 ['T']).1 0 = readH [wC4] 0) :=
  ⟨by decide, C9_projection_pure [wC4] 0 ['T'] 500 (by decide)⟩

/-! ## Claim C10: order-independence of the merge -/

/-- C10, counterexample: with one symbol's Series empty, the order of
supply changes the resulting table itself: supplied first, the empty
symbol's columns are dropped by the `all_data.empty` branch (4 columns
in total); supplied last, they are kept as all-missing columns (8
columns in total). -/
theorem C10_counterexample :
    sEmptyA.Perm sBA
      ∧ merge sEmptyA ≠ merge sBA
      ∧ (merge sEmptyA).cols.length = 4
      ∧ (merge sBA).cols.length = 8 := by
  refine ⟨?_, by decide, by decide, by decide⟩
  exact List.Perm.swap _ _ _

/-- C10, amended: for distinct symbols each with a *non-empty* Series of
ascending dates, the merge is order-independent up to the order of the
columns: any two supply orders give the same date index and, for every
column name, the same column content (hence the same values and missing
markers everywhere). -/
theorem C10_amended (s₁ s₂ : List (Str × Series)) (hp : s₁.Perm s₂)
    (hnd : (s₁.map Prod.fst).Nodup)
    (hne : ∀ p ∈ s₁, p.2 ≠ [])
    (hsorted : ∀ p ∈ s₁, List.Sorted (· < ·) (datesOf p)) :
    (merge s₁).index = (merge s₂).index
      ∧ ∀ name : Str, colLookup (merge s₁) name = colLookup (merge s₂) name := by
  have hne₂ : ∀ p ∈ s₂, p.2 ≠ [] := fun p hp2 => hne p (hp.symm.subset hp2)
  have hsorted₂ : ∀ p ∈ s₂, List.Sorted (· < ·) (datesOf p) :=
    fun p hp2 => hsorted p (hp.symm.subset hp2)
  constructor
  · rw [merge_index, merge_index]
    refine eq_of_sorted_of_mem_iff (sorted_mergedIndex s₁ hsorted)
      (sorted_mergedIndex s₂ hsorted₂) ?_
    intro a
    rw [mem_mergedIndex, mem_mergedIndex]
    constructor
    · rintro ⟨p, hp', hd⟩
      exact ⟨p, hp.subset hp', hd⟩
    · rintro ⟨p, hp', hd⟩
      exact ⟨p, hp.symm.subset hp', hd⟩
  · intro name
    rw [colLookup, colLookup, merge_cols s₁ hne, merge_cols s₂ hne₂,
      find_col_perm (colsAll_perm hp) (nodup_colsAll_keys s₁ hnd) name]

theorem C10_amended_witness :
    sAB.Perm sABrev
      ∧ (sAB.map Prod.fst).Nodup
      ∧ (∀ p ∈ sAB, p.2 ≠ [])
      ∧ (∀ p ∈ sAB, List.Sorted (· < ·) (datesOf p))
      ∧ ((merge sAB).index = (merge sABrev).index
          ∧ ∀ name : Str, colLookup (merge sAB) name = colLookup (merge sABrev) name) :=
  ⟨List.Perm.swap _ _ _, by decide, by decide, by decide,
   C10_amended sAB sABrev (List.Perm.swap _ _ _) (by decide) (by decide) (by decide)⟩
